import Mathlib

/-!
# Verification of the rollingf rotation engine

A shallow embedding of the rollingf file-rotation writer (Go) and proofs
about its components: the cached file statistics (`Rstat`), the checker
chain, the backlog filters, the filename matcher, the backlog sort
comparator, the rename processor, and the write/rotate orchestration of
`Roll.Write`.

Modelling conventions:
* File names are byte strings; we model them as `List Char` (all names in
  play are ASCII, where Go's byte-wise operations agree with char-wise ones).
* Go `time.Time` values and `time.Duration` values are modelled as `Int`
  nanosecond counts; `time.Now()` becomes an explicit `now` parameter.
* Fallible operations return `Option` (`none` = error or runtime panic,
  as noted at each definition).
* Go slice/`strconv` primitives (`min`, `Atoi`, `Itoa`, `path.Ext`,
  `strings.LastIndexByte`) are embedded directly, including `Atoi`'s
  "0 on parse failure" behaviour that the source relies on.
-/

namespace Rollingf

/-- Characters of file names. `strL s` is the char list of a literal. -/
def strL (s : String) : List Char := s.data

/-- `c` is an ASCII decimal digit (`'0'..'9'`). -/
def isDigitCh (c : Char) : Bool := 47 < c.toNat && c.toNat < 58

/-- Decimal value of a digit string (big-endian), as `strconv` computes it:
left fold `acc * 10 + digit`. Only meaningful when all chars are digits. -/
def digitsVal (ds : List Char) : Nat :=
  ds.foldl (fun a c => a * 10 + (c.toNat - 48)) 0

/-- Modelled from the spec: the repository calls a helper `IsNumeric` whose
definition is not among the provided sources (only its call sites in the
processors are). The spec describes the relevant names as carrying a
rotation suffix `.<digits>`, so `IsNumeric` holds of a non-empty string of
decimal digits. -/
def IsNumeric (s : List Char) : Bool := !s.isEmpty && s.all isDigitCh

/-- `strconv.Atoi` with its error ignored, as the source does
(`n, _ := strconv.Atoi(s)`): optional sign followed by digits parses to the
value, anything else yields `0`. (Arbitrary-precision: int64 overflow is not
modelled; no claim exercises 19-digit suffixes.) -/
def goAtoi (s : List Char) : Int :=
  match s with
  | [] => 0
  | c :: ds =>
      if c = '+' then (if IsNumeric ds then (digitsVal ds : Int) else 0)
      else if c = '-' then (if IsNumeric ds then -(digitsVal ds : Int) else 0)
      else (if IsNumeric (c :: ds) then (digitsVal (c :: ds) : Int) else 0)

/-- The divide-by-ten formatting loop behind `strconv.Itoa`, with explicit
fuel for structural recursion; digits accumulate most-significant first. -/
def natToCharsAux : Nat → Nat → List Char → List Char
  | 0, _, acc => acc
  | fuel + 1, n, acc =>
      let d : Char := Char.ofNat (48 + n % 10)
      if n / 10 = 0 then d :: acc else natToCharsAux fuel (n / 10) (d :: acc)

/-- Decimal rendering of a natural number (`strconv.Itoa` on non-negative
input): most-significant digit first, no leading zeros, `0 ↦ "0"`. -/
def natToChars (n : Nat) : List Char := natToCharsAux (n + 1) n []

/-- `strconv.Itoa` on `int`. -/
def itoaGo (i : Int) : List Char :=
  if i < 0 then '-' :: natToChars (-i).toNat else natToChars i.toNat

/-- `syscall.Timespec`: seconds and nanoseconds. -/
structure Timespec where
  sec : Int
  nsec : Int
deriving DecidableEq

/-- Nanosecond instant denoted by a `Timespec`, i.e. the instant
`time.Unix(ts.Unix())` denotes. -/
def tsNanos (t : Timespec) : Int := t.sec * 1000000000 + t.nsec

/-- Outcome of a successful `os.Stat`/`DirEntry.Info` call: the fields the
engine reads. `birth = none` models a platform whose `Sys()` result carries
no birth time (the type assertion in `Rstat.reset` fails). -/
structure FileInfoM where
  size : Int
  modTime : Int
  birth : Option Timespec
deriving DecidableEq

/-- A directory entry as `os.ReadDir` yields it. `info = none` models
`DirEntry.Info()` returning an error. -/
structure DirEntryM where
  name : List Char
  isRegular : Bool
  info : Option FileInfoM
deriving DecidableEq

/-- `Rstat` (stat.go): cached size, modification time and birth time of the
active file. The wrapped `fs.FileInfo` accessors not used by the engine are
omitted. -/
structure Rstat where
  rSize : Int
  modeTime : Int
  birthTimespec : Option Timespec
deriving DecidableEq

/-- `Rstat.Size`: the cached size. -/
def Rstat.Size (r : Rstat) : Int := r.rSize

/-- `Rstat.Birthtimespec`: `(false, zero)` when no birth time is cached,
else `(true, the cached value)`. -/
def Rstat.Birthtimespec (r : Rstat) : Bool × Timespec :=
  match r.birthTimespec with
  | none => (false, ⟨0, 0⟩)
  | some t => (true, t)

/-- `Rstat.update(size)`: add the written byte count to the cached size and
stamp the modification time with `now` (`time.Now()`). A total pure
function: it cannot fail and performs no I/O. -/
def Rstat.update (r : Rstat) (size : Int) (now : Int) : Rstat :=
  { r with rSize := r.rSize + size, modeTime := now }

/-- `Rstat.reset(filePath)`: re-stat the file. The `os.Stat` outcome is the
`statResult` argument (`none` = stat error, propagated). On success size and
modTime are replaced; the birth time is replaced only when the `Sys()` type
assertion succeeds, otherwise the previous cached value is kept. -/
def Rstat.reset (r : Rstat) (statResult : Option FileInfoM) : Option Rstat :=
  match statResult with
  | none => none
  | some info =>
      some { rSize := info.size, modeTime := info.modTime,
             birthTimespec :=
               match info.birth with
               | some b => some b
               | none => r.birthTimespec }

/-- `intervalChecker` (checker.go). -/
structure intervalChecker where
  interval : Int

/-- `intervalChecker.Check`: never triggers for a non-positive interval or a
missing birth time; otherwise triggers when `time.Now()` is strictly after
`birthTime + interval`. Never returns an error. -/
def intervalChecker.Check (c : intervalChecker) (st : Rstat) (now : Int) :
    Bool × Option String :=
  if c.interval ≤ 0 then (false, none)
  else
    match st.Birthtimespec with
    | (false, _) => (false, none)
    | (true, bt) => (decide (now > tsNanos bt + c.interval), none)

/-- `maxSizeChecker` (checker.go). -/
structure maxSizeChecker where
  maxSize : Int

/-- `maxSizeChecker.Check`: disabled for non-positive `maxSize`, else
triggers when the cached size has reached `maxSize`. -/
def maxSizeChecker.Check (c : maxSizeChecker) (st : Rstat) :
    Bool × Option String :=
  if c.maxSize ≤ 0 then (false, none)
  else (decide (st.Size ≥ c.maxSize), none)

/-- `min` (util.go): two-argument integer minimum. -/
def goMin (a b : Int) : Int := if a < b then a else b

/-- `maxBackupsFilter` (stat.go). -/
structure maxBackupsFilter where
  maxBackups : Int

/-- `maxBackupsFilter.Filter`: `removes` is the tail beyond `maxBackups`
entries when `maxBackups ≥ 0`; the remains are the Go slice
`files[:min(len(files), maxBackups)]`. A negative slice bound is a Go
runtime panic, modelled as `none`. -/
def maxBackupsFilter.Filter (f : maxBackupsFilter) (files : List DirEntryM) :
    Option (List DirEntryM × List DirEntryM) :=
  let removes :=
    if f.maxBackups ≥ 0 ∧ (files.length : Int) > f.maxBackups
    then files.drop f.maxBackups.toNat else []
  let bound := goMin (files.length : Int) f.maxBackups
  if bound < 0 then none
  else some (files.take bound.toNat, removes)

/-- `maxAgeFilter` (stat.go). -/
structure maxAgeFilter where
  maxAge : Int

/-- The scan loop of `maxAgeFilter.Filter`: index of the first entry whose
modification time is at least `maxAge` old (`time.Since(modTime) ≥ maxAge`),
or the length if none; `none` when some entry's `Info()` errors first. -/
def maxAgeScan (maxAge now : Int) : List DirEntryM → Option Nat
  | [] => some 0
  | e :: es =>
      match e.info with
      | none => none
      | some i =>
          if now - i.modTime ≥ maxAge then some 0
          else (maxAgeScan maxAge now es).map (fun n => n + 1)

/-- `maxAgeFilter.Filter`: for non-positive `maxAge` it returns
`(nil, nil, nil)`; otherwise it splits the list at the scan index,
propagating an `Info()` error. -/
def maxAgeFilter.Filter (f : maxAgeFilter) (now : Int)
    (files : List DirEntryM) : Option (List DirEntryM × List DirEntryM) :=
  if f.maxAge ≤ 0 then some ([], [])
  else (maxAgeScan f.maxAge now files).map
    (fun idx => (files.take idx, files.drop idx))

/-- Anchored literal-prefix matching: `stripPrefixQ base other = some rest`
iff `other = base ++ rest`. This is how the compiled pattern
`"^" + escaped base + tail` consumes `other`: the `^` anchor plus the
dot-escaped base name match a literal prefix (regexp library contract). -/
def stripPrefixQ : List Char → List Char → Option (List Char)
  | [], rest => some rest
  | _ :: _, [] => none
  | b :: bs, c :: cs => if b = c then stripPrefixQ bs cs else none

/-- Tail pattern `(\.\d+)?$` of `DefaultMatcher` (matcher.go): the rest of
the candidate is empty, or a dot followed by one or more digits, ending the
string. -/
def matchTailD (rest : List Char) : Bool :=
  match rest with
  | [] => true
  | c :: ds => c = '.' && (!ds.isEmpty && ds.all isDigitCh)

/-- Tail pattern `(\.\d+<ext>)?$` of `CompressMatcher format` (matcher.go),
where `<ext>` is the escaped compression extension `cfSuffix[format]`
(e.g. `.gz`): the rest is empty, or a dot, one or more digits, then the
extension, ending the string. -/
def matchTailC (ext rest : List Char) : Bool :=
  match rest with
  | [] => true
  | c :: mid =>
      c = '.' && ext.length < mid.length &&
      mid.drop (mid.length - ext.length) = ext &&
      (mid.take (mid.length - ext.length)).all isDigitCh

/-- Denotation of `DefaultMatcher`'s compiled pattern
`^<escaped base>(\.\d+)?$` as a full-string match on `other`. -/
def patDenoteD (base other : List Char) : Bool :=
  match stripPrefixQ base other with
  | some rest => matchTailD rest
  | none => false

/-- Denotation of `CompressMatcher`'s compiled pattern
`^<escaped base>(\.\d+<ext>)?$` as a full-string match on `other`. -/
def patDenoteC (ext base other : List Char) : Bool :=
  match stripPrefixQ base other with
  | some rest => matchTailC ext rest
  | none => false

/-- Length of `reg.Find([]byte(other))` for the anchored pattern: the whole
string when it matches (a `^`/`$`-anchored pattern can only match the full
input), and `0` when `Find` returns nil. -/
def goFindLenD (base other : List Char) : Nat :=
  if patDenoteD base other then other.length else 0

/-- `regexMatcher.Match` (matcher.go) after `Init(base)` with the default
suffix pattern: `len(reg.Find([]byte(other))) == len(other)`. -/
def regexMatcher.Match (base other : List Char) : Bool :=
  goFindLenD base other == other.length

/-- `reg.Find` length for the compress pattern. -/
def goFindLenC (ext base other : List Char) : Nat :=
  if patDenoteC ext base other then other.length else 0

/-- `regexMatcher.Match` after `Init(base)` with the compress suffix
pattern for extension `ext`. -/
def regexMatcher.MatchC (ext base other : List Char) : Bool :=
  goFindLenC ext base other == other.length

/-- The match phase of `Roll.rollOnce` (roll.go): keep the regular entries
accepted by the matcher. -/
def selectFamily (base : List Char) (entries : List DirEntryM) :
    List DirEntryM :=
  entries.filter (fun e => e.isRegular && regexMatcher.Match base e.name)

/-- `strings.LastIndexByte(s, '.')`: index of the last dot, `none` for Go's
`-1`. -/
def lastDotIndex : List Char → Option Nat
  | [] => none
  | c :: cs =>
      match lastDotIndex cs with
      | some i => some (i + 1)
      | none => if c = '.' then some 0 else none

/-- The numeric suffix read by the sort comparator in `Roll.rollOnce`
(roll.go): take the last-dot index (`-1` coerced to `0` when absent), drop
through it, and `Atoi` the rest ignoring the parse error. -/
def suffixNum (f : List Char) : Int :=
  let idx : Nat := (lastDotIndex f).getD 0
  goAtoi (f.drop (idx + 1))

/-- The `sort.Slice` comparator of `Roll.rollOnce` (roll.go): names of
different lengths compare by length, equal-length names by the numeric
value of the trailing suffix. -/
def rollLess (f1 f2 : List Char) : Bool :=
  if f1.length ≠ f2.length then decide (f2.length > f1.length)
  else decide (suffixNum f1 < suffixNum f2)

/-- `path.Ext`: the suffix starting at the final dot (dot included), empty
when there is no dot. (Names here contain no slash.) -/
def pathExt (s : List Char) : List Char :=
  match lastDotIndex s with
  | none => []
  | some i => s.drop i

/-- `defaultProcessor.incrTailNumber` (matcher.go): bump the trailing
numeric suffix by one; a name whose `path.Ext` is not numeric gets suffix
`.1` appended. -/
def incrTailNumber (base : List Char) : List Char :=
  if base.isEmpty then base
  else
    let last0 := pathExt base
    let last := if 0 < last0.length then last0.drop 1 else last0
    if IsNumeric last then
      (base.take (base.length - last.length - 1)) ++
        '.' :: itoaGo (goAtoi last + 1)
    else base ++ '.' :: itoaGo 1

/-- `baseProcessor.Process` (matcher.go) drives `each` over the survivors
in reverse index order; with the default `each` this issues the rename
`(name, incrTailNumber name)` for each entry, oldest (last) first. The
result is the list of `(old, new)` rename pairs in execution order. -/
def processOrder (remains : List (List Char)) :
    List (List Char × List Char) :=
  remains.reverse.map (fun b => (b, incrTailNumber b))

/-- Effect of a successful `os.Rename(old, new)` on the set of names in a
directory: `old` disappears, `new` (re)appears, a pre-existing `new` is
overwritten. No-op when `old` is absent. -/
def renameFs (fs : List (List Char)) (old new : List Char) :
    List (List Char) :=
  if old ∈ fs then (fs.erase old).filter (fun n => n ≠ new) ++ [new]
  else fs

/-- Directory contents after the default processor runs over `remains`. -/
def applyProcess (remains fs : List (List Char)) : List (List Char) :=
  (processOrder remains).foldl (fun acc op => renameFs acc op.1 op.2) fs

/-- A member of the rotation family as the engine itself creates them: the
base name, or the base name with a canonical (`Itoa`-rendered) numeric
suffix. -/
def canonFamily (base n : List Char) : Prop :=
  n = base ∨ ∃ k : Nat, n = base ++ '.' :: natToChars k

/-- The orchestration state of one `Roll` (roll.go): the bytes in the file
at the primary path, the bytes in the file at the staging path
(`<dir>/_<base>`), which of the two the open handle `r.f` points at, the
cached `Rstat`, and the metadata `os.Stat` would report for the primary
path. Writes are `List Nat` byte slices. -/
structure RollSt where
  primary : List Nat
  staging : List Nat
  activeIsStaging : Bool
  st : Rstat
  primaryMod : Int
  primaryBirth : Option Timespec
deriving DecidableEq

/-- What `os.Stat(r.filePath)` reports in a given state: the primary file's
current length, its last modification instant, and its birth time. -/
def primaryStat (s : RollSt) : FileInfoM :=
  { size := (s.primary.length : Int), modTime := s.primaryMod,
    birth := s.primaryBirth }

/-- The append `re, _ := r.f.Write(p)` plus `r.st.update(int64(re))` of
`Roll.Write` (roll.go): the bytes go to whichever file the handle is open
on, and the cached stat is bumped by the count written. -/
def fileWrite (s : RollSt) (p : List Nat) (now : Int) : RollSt :=
  if s.activeIsStaging then
    { s with staging := s.staging ++ p,
             st := s.st.update (p.length : Int) now }
  else
    { s with primary := s.primary ++ p,
             primaryMod := now,
             st := s.st.update (p.length : Int) now }

/-- A pluggable checker as `Roll.checkChain` invokes it: a pure decision on
the cached stat (and the current instant), with an optional error. -/
def CheckerM : Type := Rstat → Int → Bool × Option String

/-- `Roll.checkChain` (roll.go): short-circuit OR over the checkers; the
first error aborts the chain (`none`), the first trigger stops it with
`some true`. -/
def checkChainGo : List CheckerM → Rstat → Int → Option Bool
  | [], _, _ => some false
  | c :: cs, st, now =>
      match c st now with
      | (_, some _) => none
      | (true, none) => some true
      | (false, none) => checkChainGo cs st now

/-- `Roll.openNew` (roll.go): re-stat the primary path into the cached
`Rstat`, close the handle on the primary file and open a handle on the
staging path (create/append). The byte contents of both files are
untouched. -/
def openNew (s : RollSt) : RollSt :=
  { s with st := (Rstat.reset s.st (some (primaryStat s))).getD s.st,
           activeIsStaging := true }

/-- One `Roll.Write` call (roll.go), with the asynchronous
`go r.checkOnce()` it spawns serialized immediately after it: first the
append and stat update, then the checker chain on the updated stat, then —
only when the chain reports a trigger — the handle swap of
`roll`/`openNew`. Chain errors are logged and do not rotate
(`checkAndRoll`). The capacity-one `checkCh`/`rotateCh` debouncing drops
concurrent duplicate triggers; serializing the check after its own write
preserves each write's program order, which is what the claims about write
ordering concern. -/
def writeStep (cks : List CheckerM) (s : RollSt) (p : List Nat)
    (now : Int) : RollSt :=
  let s1 := fileWrite s p now
  if checkChainGo cks s1.st now == some true then openNew s1 else s1

/-- A sequence of `Write` calls, each with payload and instant. -/
def writeTrace (cks : List CheckerM) (s : RollSt)
    (ws : List (List Nat × Int)) : RollSt :=
  ws.foldl (fun s pw => writeStep cks s pw.1 pw.2) s

/-- The state right after `baseR`/`Open`: both files empty (fresh primary
file), handle on the primary path. -/
def initRoll (st0 : Rstat) (m0 : Int) (b0 : Option Timespec) : RollSt :=
  { primary := [], staging := [], activeIsStaging := false,
    st := st0, primaryMod := m0, primaryBirth := b0 }

/-! ### Decimal rendering and parsing lemmas -/

theorem toNat_digitChar {d : Nat} (h : d < 10) :
    (Char.ofNat (48 + d)).toNat = 48 + d := by
  interval_cases d <;> decide

theorem isDigitCh_digitChar {d : Nat} (h : d < 10) :
    isDigitCh (Char.ofNat (48 + d)) = true := by
  interval_cases d <;> decide

theorem isDigitCh_ne_dot {c : Char} (h : isDigitCh c = true) : c ≠ '.' := by
  rintro rfl
  exact absurd h (by decide)

theorem natToCharsAux_eq (fuel : Nat) :
    ∀ (n : Nat) (acc : List Char), n < fuel →
      natToCharsAux fuel n acc =
        (if n = 0 then ['0']
         else ((Nat.digits 10 n).reverse).map (fun d => Char.ofNat (48 + d)))
          ++ acc := by
  induction fuel with
  | zero => intro n acc h; omega
  | succ fuel ih =>
      intro n acc h
      by_cases h0 : n = 0
      · subst h0; simp [natToCharsAux]
      · by_cases h10 : n / 10 = 0
        · have hn10 : n < 10 := by omega
          rw [Nat.digits_def' (by norm_num : (1 : ℕ) < 10)
            (Nat.pos_of_ne_zero h0), h10]
          simp [natToCharsAux, h10, h0, Nat.mod_eq_of_lt hn10]
        · have hrec : n / 10 < fuel := by
            have := Nat.div_lt_self (Nat.pos_of_ne_zero h0)
              (by norm_num : 1 < 10)
            omega
          rw [Nat.digits_def' (by norm_num : (1 : ℕ) < 10)
            (Nat.pos_of_ne_zero h0)]
          simp only [natToCharsAux, h10, if_false, ih (n / 10) _ hrec,
            List.reverse_cons, List.map_append]
          simp [h0, List.append_assoc]

theorem natToChars_eq (n : Nat) :
    natToChars n =
      (if n = 0 then ['0']
       else ((Nat.digits 10 n).reverse).map (fun d => Char.ofNat (48 + d))) := by
  simpa [natToChars] using natToCharsAux_eq (n + 1) n [] (by omega)

theorem natToChars_mem {n : Nat} {c : Char} (h : c ∈ natToChars n) :
    ∃ d, d < 10 ∧ c = Char.ofNat (48 + d) := by
  rw [natToChars_eq] at h
  by_cases h0 : n = 0
  · subst h0; simp at h; exact ⟨0, by norm_num, h⟩
  · simp [h0] at h
    obtain ⟨d, hd, rfl⟩ := h
    exact ⟨d, Nat.digits_lt_base (by norm_num) hd, rfl⟩

theorem natToChars_all_digit (n : Nat) :
    (natToChars n).all isDigitCh = true := by
  rw [List.all_eq_true]
  intro c hc
  obtain ⟨d, hd, rfl⟩ := natToChars_mem hc
  exact isDigitCh_digitChar hd

theorem natToChars_ne_nil (n : Nat) : natToChars n ≠ [] := by
  rw [natToChars_eq]
  by_cases h0 : n = 0
  · simp [h0]
  · simp [h0, Nat.digits_ne_nil_iff_ne_zero.mpr h0]

theorem natToChars_no_dot {n : Nat} : ∀ c ∈ natToChars n, c ≠ '.' := by
  intro c hc
  obtain ⟨d, hd, rfl⟩ := natToChars_mem hc
  exact isDigitCh_ne_dot (isDigitCh_digitChar hd)

theorem digitsVal_render (L : List Nat) (h : ∀ d ∈ L, d < 10) :
    digitsVal ((L.reverse).map (fun d => Char.ofNat (48 + d)))
      = Nat.ofDigits 10 L := by
  induction L with
  | nil => simp [digitsVal, Nat.ofDigits]
  | cons d L ih =>
      have hd : d < 10 := h d (List.mem_cons_self d L)
      rw [List.reverse_cons, List.map_append, digitsVal, List.foldl_append]
      have ihv := ih (fun e he => h e (List.mem_cons_of_mem d he))
      rw [digitsVal] at ihv
      rw [ihv]
      simp [Nat.ofDigits_cons, toNat_digitChar hd]
      omega

theorem digitsVal_natToChars (n : Nat) : digitsVal (natToChars n) = n := by
  rw [natToChars_eq]
  by_cases h0 : n = 0
  · subst h0; decide
  · simp only [h0, if_false]
    rw [digitsVal_render _ (fun d hd => Nat.digits_lt_base (by norm_num) hd)]
    exact Nat.ofDigits_digits 10 n

theorem natToChars_inj {a b : Nat} (h : natToChars a = natToChars b) :
    a = b := by
  have := congrArg digitsVal h
  rwa [digitsVal_natToChars, digitsVal_natToChars] at this

theorem natToChars_len_mono (k : Nat) :
    (natToChars k).length ≤ (natToChars (k + 1)).length := by
  rw [natToChars_eq, natToChars_eq]
  by_cases h0 : k = 0
  · subst h0
    simp [List.length_pos.mpr (Nat.digits_ne_nil_iff_ne_zero.mpr
      (one_ne_zero : (1 : ℕ) ≠ 0))]
  · simp only [h0, if_false, Nat.succ_ne_zero, List.length_map,
      List.length_reverse]
    exact Nat.digits_len_le_digits_len_succ 10 k

theorem IsNumeric_natToChars (k : Nat) : IsNumeric (natToChars k) = true := by
  have h1 := natToChars_ne_nil k
  have h2 := natToChars_all_digit k
  simp [IsNumeric, h2, h1]

theorem goAtoi_digits {ds : List Char} (h1 : ds ≠ [])
    (h2 : ds.all isDigitCh = true) : goAtoi ds = (digitsVal ds : Int) := by
  match ds, h1 with
  | c :: cs, _ =>
      have hc : isDigitCh c = true := by
        have := List.all_eq_true.mp h2 c (List.mem_cons_self c cs)
        simpa using this
      have hplus : c ≠ '+' := by rintro rfl; exact absurd hc (by decide)
      have hminus : c ≠ '-' := by rintro rfl; exact absurd hc (by decide)
      have hnum : IsNumeric (c :: cs) = true := by simp [IsNumeric, h2]
      simp [goAtoi, hplus, hminus, hnum]

theorem goAtoi_natToChars (k : Nat) : goAtoi (natToChars k) = (k : Int) := by
  rw [goAtoi_digits (natToChars_ne_nil k) (natToChars_all_digit k),
    digitsVal_natToChars]

theorem itoaGo_ofNat (m : Nat) : itoaGo (m : Int) = natToChars m := by
  simp [itoaGo]

/-! ### Matcher lemmas -/

theorem stripPrefixQ_eq_some {base : List Char} :
    ∀ {other rest : List Char},
      stripPrefixQ base other = some rest ↔ other = base ++ rest := by
  induction base with
  | nil => intro other rest; simp [stripPrefixQ]
  | cons b bs ih =>
      intro other rest
      cases other with
      | nil => simp [stripPrefixQ]
      | cons c cs =>
          by_cases h : b = c
          · subst h; simp [stripPrefixQ, ih]
          · simp only [stripPrefixQ, if_neg h, List.cons_append,
              List.cons.injEq]
            constructor
            · intro habs; exact absurd habs (by simp)
            · intro habs; exact absurd habs.1.symm h

theorem matchTailD_iff {rest : List Char} :
    matchTailD rest = true ↔
      (rest = [] ∨
       ∃ ds, ds ≠ [] ∧ ds.all isDigitCh = true ∧ rest = '.' :: ds) := by
  cases rest with
  | nil => simp [matchTailD]
  | cons c ds =>
      simp only [matchTailD, Bool.and_eq_true, decide_eq_true_eq,
        Bool.not_eq_true']
      constructor
      · rintro ⟨hc, hne, hdig⟩
        subst hc
        refine Or.inr ⟨ds, ?_, hdig, rfl⟩
        intro habs; subst habs; exact absurd hne (by decide)
      · rintro (habs | ⟨ds2, hne, hdig, heq⟩)
        · exact absurd habs (by simp)
        · have hc : c = '.' := (List.cons.injEq _ _ _ _ ▸ heq).1
          have hds : ds = ds2 := (List.cons.injEq _ _ _ _ ▸ heq).2
          subst hc; subst hds
          refine ⟨rfl, ?_, hdig⟩
          cases ds with
          | nil => exact absurd rfl hne
          | cons a as => rfl

theorem patDenoteD_iff {base other : List Char} :
    patDenoteD base other = true ↔
      (other = base ∨
       ∃ ds, ds ≠ [] ∧ ds.all isDigitCh = true ∧
         other = base ++ '.' :: ds) := by
  unfold patDenoteD
  cases hsp : stripPrefixQ base other with
  | none =>
      constructor
      · intro h; exact absurd h (by simp)
      · intro h
        exfalso
        rcases h with h1 | ⟨ds, _, _, h1⟩
        · have h2 : stripPrefixQ base other = some [] :=
            stripPrefixQ_eq_some.mpr (by simp [h1])
          rw [hsp] at h2; exact absurd h2 (by simp)
        · have h2 : stripPrefixQ base other = some ('.' :: ds) :=
            stripPrefixQ_eq_some.mpr h1
          rw [hsp] at h2; exact absurd h2 (by simp)
  | some rest =>
      have hother : other = base ++ rest := stripPrefixQ_eq_some.mp hsp
      subst hother
      rw [matchTailD_iff]
      constructor
      · rintro (rfl | ⟨ds, hne, hdig, rfl⟩)
        · exact Or.inl (by simp)
        · exact Or.inr ⟨ds, hne, hdig, rfl⟩
      · rintro (hb | ⟨ds, hne, hdig, heq⟩)
        · have h0 := congrArg List.length hb
          simp at h0
          exact Or.inl h0
        · exact Or.inr ⟨ds, hne, hdig, List.append_cancel_left heq⟩

theorem regexMatcher_Match_iff {base other : List Char} :
    regexMatcher.Match base other = true ↔
      (patDenoteD base other = true ∨ other = []) := by
  unfold regexMatcher.Match goFindLenD
  by_cases h : patDenoteD base other
  · simp [h]
  · rw [if_neg h]
    simp only [beq_iff_eq, h, Bool.false_eq_true, false_or]
    exact ⟨fun h0 => List.length_eq_zero.mp h0.symm, fun h0 => by simp [h0]⟩

theorem matchTailC_iff {ext rest : List Char} :
    matchTailC ext rest = true ↔
      (rest = [] ∨
       ∃ ds, ds ≠ [] ∧ ds.all isDigitCh = true ∧
         rest = '.' :: (ds ++ ext)) := by
  cases rest with
  | nil => simp [matchTailC]
  | cons c mid =>
      simp only [matchTailC, Bool.and_eq_true, decide_eq_true_eq]
      constructor
      · rintro ⟨⟨⟨hc, hlen⟩, hdrop⟩, htake⟩
        subst hc
        refine Or.inr ⟨mid.take (mid.length - ext.length), ?_, htake, ?_⟩
        · intro habs
          have hl := congrArg List.length habs
          simp only [List.length_take, List.length_nil] at hl
          omega
        · have hsplit : mid.take (mid.length - ext.length)
              ++ mid.drop (mid.length - ext.length) = mid := List.take_append_drop _ _
          rw [hdrop] at hsplit
          rw [hsplit]
      · rintro (habs | ⟨ds2, hne, hdig, heq⟩)
        · exact absurd habs (by simp)
        · have hc : c = '.' := (List.cons.injEq _ _ _ _ ▸ heq).1
          have hm : mid = ds2 ++ ext := (List.cons.injEq _ _ _ _ ▸ heq).2
          subst hc; subst hm
          have hlds : 0 < ds2.length := List.length_pos.mpr hne
          have hsub : (ds2 ++ ext).length - ext.length = ds2.length := by
            simp
          rw [hsub]
          refine ⟨⟨⟨rfl, by simp [hlds]⟩, List.drop_left ds2 ext⟩, ?_⟩
          rw [List.take_left]
          exact hdig

theorem patDenoteC_iff {ext base other : List Char} :
    patDenoteC ext base other = true ↔
      (other = base ∨
       ∃ ds, ds ≠ [] ∧ ds.all isDigitCh = true ∧
         other = base ++ '.' :: (ds ++ ext)) := by
  unfold patDenoteC
  cases hsp : stripPrefixQ base other with
  | none =>
      constructor
      · intro h; exact absurd h (by simp)
      · intro h
        exfalso
        rcases h with h1 | ⟨ds, _, _, h1⟩
        · have h2 : stripPrefixQ base other = some [] :=
            stripPrefixQ_eq_some.mpr (by simp [h1])
          rw [hsp] at h2; exact absurd h2 (by simp)
        · have h2 : stripPrefixQ base other = some ('.' :: (ds ++ ext)) :=
            stripPrefixQ_eq_some.mpr h1
          rw [hsp] at h2; exact absurd h2 (by simp)
  | some rest =>
      have hother : other = base ++ rest := stripPrefixQ_eq_some.mp hsp
      subst hother
      rw [matchTailC_iff]
      constructor
      · rintro (rfl | ⟨ds, hne, hdig, rfl⟩)
        · exact Or.inl (by simp)
        · exact Or.inr ⟨ds, hne, hdig, rfl⟩
      · rintro (hb | ⟨ds, hne, hdig, heq⟩)
        · have h0 := congrArg List.length hb
          simp at h0
          exact Or.inl h0
        · exact Or.inr ⟨ds, hne, hdig, List.append_cancel_left heq⟩

theorem regexMatcher_MatchC_iff {ext base other : List Char} :
    regexMatcher.MatchC ext base other = true ↔
      (patDenoteC ext base other = true ∨ other = []) := by
  unfold regexMatcher.MatchC goFindLenC
  by_cases h : patDenoteC ext base other
  · simp [h]
  · rw [if_neg h]
    simp only [beq_iff_eq, h, Bool.false_eq_true, false_or]
    exact ⟨fun h0 => List.length_eq_zero.mp h0.symm, fun h0 => by simp [h0]⟩

/-! ### Sort comparator lemmas -/

theorem lastDotIndex_eq_none {ds : List Char} (h : ∀ c ∈ ds, c ≠ '.') :
    lastDotIndex ds = none := by
  induction ds with
  | nil => rfl
  | cons c cs ih =>
      have hc : c ≠ '.' := h c (List.mem_cons_self c cs)
      rw [lastDotIndex, ih (fun e he => h e (List.mem_cons_of_mem c he))]
      simp [hc]

theorem lastDotIndex_append_dot {xs ds : List Char}
    (h : lastDotIndex ds = none) :
    lastDotIndex (xs ++ '.' :: ds) = some xs.length := by
  induction xs with
  | nil => simp [lastDotIndex, h]
  | cons x xs ih =>
      rw [List.cons_append, lastDotIndex, ih]
      simp

theorem drop_after_dot (base ds : List Char) :
    (base ++ '.' :: ds).drop (base.length + 1) = ds := by
  have h1 : base ++ '.' :: ds = (base ++ ['.']) ++ ds := by simp
  have h2 : base.length + 1 = (base ++ ['.']).length := by simp
  rw [h1, h2, List.drop_left]

theorem suffixNum_append {base ds : List Char} (hds : ∀ c ∈ ds, c ≠ '.') :
    suffixNum (base ++ '.' :: ds) = goAtoi ds := by
  unfold suffixNum
  rw [lastDotIndex_append_dot (lastDotIndex_eq_none hds)]
  simp only [Option.getD_some]
  rw [drop_after_dot]

theorem rollLess_iff {f1 f2 : List Char} :
    rollLess f1 f2 = true ↔
      (f1.length < f2.length ∨
       (f1.length = f2.length ∧ suffixNum f1 < suffixNum f2)) := by
  unfold rollLess
  by_cases h : f1.length = f2.length
  · rw [if_neg (fun hne => hne h)]
    simp only [decide_eq_true_eq]
    constructor
    · intro h2; exact Or.inr ⟨h, h2⟩
    · rintro (h2 | ⟨_, h2⟩)
      · omega
      · exact h2
  · rw [if_pos h]
    simp only [decide_eq_true_eq]
    constructor
    · intro h2; exact Or.inl h2
    · rintro (h2 | ⟨h2, _⟩)
      · exact h2
      · exact absurd h2 h

/-! ### Processor lemmas -/

theorem pathExt_family (base : List Char) (k : Nat) :
    pathExt (base ++ '.' :: natToChars k) = '.' :: natToChars k := by
  unfold pathExt
  rw [lastDotIndex_append_dot (lastDotIndex_eq_none natToChars_no_dot)]
  exact List.drop_left base ('.' :: natToChars k)

theorem incrTailNumber_family (base : List Char) (k : Nat) :
    incrTailNumber (base ++ '.' :: natToChars k)
      = base ++ '.' :: natToChars (k + 1) := by
  have hne : (base ++ '.' :: natToChars k).isEmpty = false := by
    cases base <;> simp
  unfold incrTailNumber
  rw [hne]
  simp only [Bool.false_eq_true, if_false, pathExt_family]
  have hpos : 0 < ('.' :: natToChars k).length := by simp
  rw [if_pos hpos]
  simp only [List.drop_one, List.tail_cons]
  rw [if_pos (IsNumeric_natToChars k)]
  rw [goAtoi_natToChars]
  have hcast : (k : Int) + 1 = ((k + 1 : Nat) : Int) := by push_cast; ring
  rw [hcast, itoaGo_ofNat]
  have hlen : (base ++ '.' :: natToChars k).length
      - (natToChars k).length - 1 = base.length := by
    simp only [List.length_append, List.length_cons]
    omega
  rw [hlen, List.take_left]

/-- On a strictly `rollLess`-sorted list of canonical family names, the
rename target of any entry differs from every entry at a smaller index,
i.e. from every entry the reverse-order processor has not yet reached. -/
theorem no_collision_aux (base : List Char) (remains : List (List Char))
    (hfam : ∀ n ∈ remains, canonFamily base n)
    (hsort : remains.Pairwise (fun a b => rollLess a b = true)) :
    ∀ i j (hi : i < remains.length) (hj : j < i),
      incrTailNumber (remains.get ⟨i, hi⟩)
        ≠ remains.get ⟨j, Nat.lt_trans hj hi⟩ := by
  intro i j hi hj
  have hji : rollLess (remains.get ⟨j, Nat.lt_trans hj hi⟩)
      (remains.get ⟨i, hi⟩) = true :=
    List.pairwise_iff_get.mp hsort ⟨j, Nat.lt_trans hj hi⟩ ⟨i, hi⟩ hj
  have hfi := hfam _ (List.get_mem remains i hi)
  have hfj := hfam _ (List.get_mem remains j (Nat.lt_trans hj hi))
  rcases hfi with hib | ⟨ki, hik⟩
  · -- the unsuffixed base name can only sit at index 0, so no j < i exists
    exfalso
    rw [hib] at hji
    rcases hfj with hjb | ⟨kj, hjk⟩
    · rw [hjb] at hji
      simp [rollLess] at hji
    · rw [hjk, rollLess_iff] at hji
      have hkj := List.length_pos.mpr (natToChars_ne_nil kj)
      rcases hji with h2 | ⟨h2, _⟩ <;>
        simp only [List.length_append, List.length_cons] at h2 <;> omega
  · rw [hik, incrTailNumber_family]
    intro heq
    rcases hfj with hjb | ⟨kj, hjk⟩
    · rw [hjb] at heq
      have := congrArg List.length heq
      have hk1 := List.length_pos.mpr (natToChars_ne_nil (ki + 1))
      simp only [List.length_append, List.length_cons] at this
      omega
    · rw [hjk] at heq
      have hcons := List.append_cancel_left heq
      have hnc : natToChars (ki + 1) = natToChars kj :=
        (List.cons.injEq _ _ _ _ ▸ hcons).2
      have hkj : kj = ki + 1 := (natToChars_inj hnc).symm
      rw [hik, hjk, rollLess_iff] at hji
      rcases hji with h2 | ⟨_, h2⟩
      · have hmono := natToChars_len_mono ki
        rw [hkj] at h2
        simp only [List.length_append, List.length_cons] at h2
        omega
      · rw [suffixNum_append natToChars_no_dot,
          suffixNum_append natToChars_no_dot, goAtoi_natToChars,
          goAtoi_natToChars] at h2
        rw [hkj] at h2
        omega

/-! ### Write/rotate orchestration lemmas -/

/-- `openNew` never touches the byte contents of either file. -/
theorem openNew_contents (s : RollSt) :
    (openNew s).primary = s.primary ∧ (openNew s).staging = s.staging ∧
    (openNew s).activeIsStaging = true := by
  simp [openNew]

/-- Trace invariant: one `Write` step appends its payload to the
concatenation of the two files, and the staging file stays empty while the
handle is still on the primary path. -/
theorem writeStep_concat (cks : List CheckerM) (s : RollSt) (p : List Nat)
    (now : Int) (h : s.activeIsStaging = false → s.staging = []) :
    (writeStep cks s p now).primary ++ (writeStep cks s p now).staging
      = (s.primary ++ s.staging) ++ p ∧
    ((writeStep cks s p now).activeIsStaging = false →
      (writeStep cks s p now).staging = []) := by
  have hfw1 : (fileWrite s p now).primary ++ (fileWrite s p now).staging
      = (s.primary ++ s.staging) ++ p := by
    cases ha : s.activeIsStaging with
    | true => simp [fileWrite, ha, List.append_assoc]
    | false => simp [fileWrite, ha, h ha]
  have hfw2 : (fileWrite s p now).activeIsStaging = false →
      (fileWrite s p now).staging = [] := by
    cases ha : s.activeIsStaging with
    | true => intro hx; rw [fileWrite] at hx; simp [ha] at hx
    | false => intro _; simp [fileWrite, ha, h ha]
  unfold writeStep
  by_cases hc : (checkChainGo cks ((fileWrite s p now).st) now
      == some true) = true
  · rw [if_pos hc]
    obtain ⟨h1, h2, h3⟩ := openNew_contents (fileWrite s p now)
    rw [h1, h2, h3]
    exact ⟨hfw1, fun hx => absurd hx (by decide)⟩
  · rw [if_neg hc]
    exact ⟨hfw1, hfw2⟩

theorem writeTrace_concat (cks : List CheckerM)
    (ws : List (List Nat × Int)) :
    ∀ s : RollSt, (s.activeIsStaging = false → s.staging = []) →
      (writeTrace cks s ws).primary ++ (writeTrace cks s ws).staging
        = (s.primary ++ s.staging) ++ (ws.map Prod.fst).flatten ∧
      ((writeTrace cks s ws).activeIsStaging = false →
        (writeTrace cks s ws).staging = []) := by
  induction ws with
  | nil => intro s h; exact ⟨by simp [writeTrace], h⟩
  | cons w ws ih =>
      intro s h
      have hstep := writeStep_concat cks s w.1 w.2 h
      have htail := ih (writeStep cks s w.1 w.2) hstep.2
      refine ⟨?_, htail.2⟩
      have : writeTrace cks s (w :: ws)
          = writeTrace cks (writeStep cks s w.1 w.2) ws := by
        simp [writeTrace]
      rw [this, htail.1, hstep.1]
      simp [List.append_assoc]

/-! ## Claim theorems -/

/-- Concrete directory entries for counterexamples and witnesses. -/
def sampleEntry : DirEntryM := ⟨strL "app.log.1", true, some ⟨3, 50, none⟩⟩

def entryOld : DirEntryM := ⟨strL "app.log.3", true, some ⟨7, 10, none⟩⟩

/-- C1: for every sequence of byte slices passed to `Roll.Write`, with the
checker-driven handle swap firing at whatever points the chain triggers,
the concatenation of the pre-rotation file contents (the primary file) and
the post-rotation file contents (the staging file) equals the concatenation
of all payloads passed to `Write`: no byte is lost or duplicated across the
rotation boundary. -/
theorem write_rotation_byte_preservation (cks : List CheckerM)
    (ws : List (List Nat × Int)) (st0 : Rstat) (m0 : Int)
    (b0 : Option Timespec) :
    (writeTrace cks (initRoll st0 m0 b0) ws).primary
        ++ (writeTrace cks (initRoll st0 m0 b0) ws).staging
      = (ws.map Prod.fst).flatten := by
  have h := writeTrace_concat cks ws (initRoll st0 m0 b0) (fun _ => rfl)
  simpa [initRoll] using h.1

/-- The checker configuration of the C2 counterexample: a single
`MaxSizeChecker(1)`. -/
def cexCheckers : List CheckerM := [fun st _ => maxSizeChecker.Check ⟨1⟩ st]

/-- C2 counterexample: starting from an empty file with a 1-byte size
threshold, the very first `Write` triggers a rotation — even though the
stat before the append (size 0) would not have triggered it — and the
written byte sits in the primary file while the new staging file is empty.
This refutes "if a checker triggers, the handle swap ... is performed
before the caller's bytes are written (so those bytes land in the new
file)". -/
theorem write_checks_after_append_cex :
    ¬ ((writeStep cexCheckers (initRoll ⟨0, 0, none⟩ 0 none)
          [7] 5).activeIsStaging = true →
       (writeStep cexCheckers (initRoll ⟨0, 0, none⟩ 0 none)
          [7] 5).staging = [7]) := by
  decide

/-- C2 (amended): each `Roll.Write` first appends the payload to the handle
that is active on entry and updates the cached stat; the checker chain is
evaluated afterwards (asynchronously) against the already-updated stat, and
a triggered handle swap activates the staging handle only after the append,
so the triggering write's bytes land in the pre-rotation file and only
subsequent writes land in the new file. -/
theorem write_appends_then_checks (cks : List CheckerM) (s : RollSt)
    (p : List Nat) (now : Int) :
    (s.activeIsStaging = false →
       (writeStep cks s p now).primary = s.primary ++ p ∧
       (writeStep cks s p now).staging = s.staging) ∧
    (s.activeIsStaging = true →
       (writeStep cks s p now).staging = s.staging ++ p ∧
       (writeStep cks s p now).primary = s.primary) ∧
    ((writeStep cks s p now).activeIsStaging = true ↔
       (s.activeIsStaging = true ∨
        checkChainGo cks ((fileWrite s p now).st) now = some true)) := by
  have hp : (fileWrite s p now).primary
      = (if s.activeIsStaging then s.primary else s.primary ++ p) := by
    cases ha : s.activeIsStaging <;> simp [fileWrite, ha]
  have hs : (fileWrite s p now).staging
      = (if s.activeIsStaging then s.staging ++ p else s.staging) := by
    cases ha : s.activeIsStaging <;> simp [fileWrite, ha]
  have hact : (fileWrite s p now).activeIsStaging = s.activeIsStaging := by
    cases ha : s.activeIsStaging <;> simp [fileWrite, ha]
  unfold writeStep
  by_cases hc : (checkChainGo cks ((fileWrite s p now).st) now
      == some true) = true
  · rw [if_pos hc]
    have hc2 : checkChainGo cks ((fileWrite s p now).st) now = some true := by
      simpa using hc
    obtain ⟨o1, o2, o3⟩ := openNew_contents (fileWrite s p now)
    rw [o1, o2, o3, hp, hs]
    refine ⟨fun ha => by simp [ha], fun ha => by simp [ha], by simp [hc2]⟩
  · rw [if_neg hc]
    have hc2 : ¬ checkChainGo cks ((fileWrite s p now).st) now
        = some true := by simpa using hc
    rw [hp, hs, hact]
    refine ⟨fun ha => by simp [ha], fun ha => by simp [ha], by simp [hc2]⟩

theorem write_appends_then_checks_witness :
    (writeStep cexCheckers (initRoll ⟨0, 0, none⟩ 0 none) [7] 5).primary
      = [7] ∧
    (writeStep cexCheckers (initRoll ⟨0, 0, none⟩ 0 none) [7] 5).staging
      = [] := by
  have h := (write_appends_then_checks cexCheckers
    (initRoll ⟨0, 0, none⟩ 0 none) [7] 5).1 rfl
  exact ⟨by simpa using h.1, by simpa using h.2⟩

/-- C3 counterexample: with `maxAge = 0` (non-positive) and a one-entry
backlog, `Filter` returns empty remains rather than the input list. -/
theorem maxAgeFilter_nonpositive_cex :
    maxAgeFilter.Filter ⟨0⟩ 100 [sampleEntry] = some ([], []) ∧
    maxAgeFilter.Filter ⟨0⟩ 100 [sampleEntry]
      ≠ some ([sampleEntry], []) := by
  decide

/-- C3 (amended): a non-positive `maxAge` short-circuits
`maxAgeFilter.Filter` to `(nil, nil, nil)`: no entries are removed and no
error is returned, but the remains are the empty list — not the input list
unchanged — so downstream stages see an empty backlog. -/
theorem maxAgeFilter_nonpositive_empties (f : maxAgeFilter) (now : Int)
    (files : List DirEntryM) (h : f.maxAge ≤ 0) :
    f.Filter now files = some ([], []) := by
  simp [maxAgeFilter.Filter, h]

theorem maxAgeFilter_nonpositive_empties_witness :
    maxAgeFilter.Filter ⟨-2⟩ 100 [sampleEntry, entryOld] = some ([], []) :=
  maxAgeFilter_nonpositive_empties ⟨-2⟩ 100 [sampleEntry, entryOld]
    (by decide)

/-- C4 (code bug): the guard `maxBackups >= 0 && len(files) > maxBackups`
shows negative `maxBackups` is meant to delete nothing, but the return
expression `files[:min(len(files), maxBackups)]` then slices with the
negative bound itself — a runtime panic (`none`) on every input, even the
empty backlog — instead of returning the whole list. `maxBackups = 0`
behaves as claimed: empty remains, everything removed. -/
theorem maxBackupsFilter_negative_panics :
    maxBackupsFilter.Filter ⟨-1⟩ [sampleEntry] = none ∧
    maxBackupsFilter.Filter ⟨-1⟩ [] = none ∧
    maxBackupsFilter.Filter ⟨0⟩ [sampleEntry] = some ([], [sampleEntry]) := by
  decide

/-- C5 counterexample: the anchored pattern cannot match the empty
candidate, so `Find` returns nil — but `len(nil) == len("")` holds, making
`Match` accept the empty name, which is neither the base name nor the base
name with a digit suffix. -/
theorem regexMatcher_empty_name_cex :
    ¬ (∀ other, regexMatcher.Match (strL "app.log") other = true ↔
        (other = strL "app.log" ∨
         ∃ ds, ds ≠ [] ∧ ds.all isDigitCh = true ∧
           other = strL "app.log" ++ '.' :: ds)) := by
  intro h
  rcases (h []).mp (by decide) with h1 | ⟨ds, hne, _, h2⟩
  · exact absurd h1 (by decide)
  · have hl := congrArg List.length h2
    simp only [List.length_nil, List.length_append, List.length_cons] at hl
    omega

/-- C5 (amended): after `Init` with base `app.log`, `Match` accepts exactly
the base name, the base name followed by `.<digits>` (and, for the gzip
compress matcher, `.<digits>.gz`), anchored at both ends — plus the empty
candidate name, an artifact of comparing the length of `Find`'s nil result
against the empty input. The claim's five concrete examples all hold. -/
theorem regexMatcher_match_characterization :
    (∀ other, regexMatcher.Match (strL "app.log") other = true ↔
       (other = [] ∨ other = strL "app.log" ∨
        ∃ ds, ds ≠ [] ∧ ds.all isDigitCh = true ∧
          other = strL "app.log" ++ '.' :: ds)) ∧
    (∀ other,
       regexMatcher.MatchC (strL ".gz") (strL "app.log") other = true ↔
       (other = [] ∨ other = strL "app.log" ∨
        ∃ ds, ds ≠ [] ∧ ds.all isDigitCh = true ∧
          other = strL "app.log" ++ '.' :: (ds ++ strL ".gz"))) ∧
    regexMatcher.Match (strL "app.log") (strL "app.log") = true ∧
    regexMatcher.Match (strL "app.log") (strL "app.log.3") = true ∧
    regexMatcher.MatchC (strL ".gz") (strL "app.log")
      (strL "app.log.2.gz") = true ∧
    regexMatcher.Match (strL "app.log") (strL "other.log") = false ∧
    regexMatcher.Match (strL "app.log") (strL "app.log.x") = false := by
  refine ⟨?_, ?_, by decide, by decide, by decide, by decide, by decide⟩
  · intro other
    rw [regexMatcher_Match_iff, patDenoteD_iff]
    exact or_comm
  · intro other
    rw [regexMatcher_MatchC_iff, patDenoteC_iff]
    exact or_comm

/-- C6: the backlog comparator of `rollOnce` puts `f1` strictly before `f2`
iff `f1` is shorter, or the lengths are equal and `f1`'s trailing numeric
suffix is smaller; on family names the trailing suffix reads as its decimal
value, and the unsuffixed base name sorts before every suffixed entry. -/
theorem rollOnce_sort_comparator :
    (∀ f1 f2 : List Char,
       rollLess f1 f2 = true ↔
         (f1.length < f2.length ∨
          (f1.length = f2.length ∧ suffixNum f1 < suffixNum f2))) ∧
    (∀ base ds : List Char, ds ≠ [] → ds.all isDigitCh = true →
       suffixNum (base ++ '.' :: ds) = (digitsVal ds : Int) ∧
       rollLess base (base ++ '.' :: ds) = true) := by
  constructor
  · intro f1 f2; exact rollLess_iff
  · intro base ds h1 h2
    have hnd : ∀ c ∈ ds, c ≠ '.' := fun c hc =>
      isDigitCh_ne_dot (List.all_eq_true.mp h2 c hc)
    constructor
    · rw [suffixNum_append hnd, goAtoi_digits h1 h2]
    · rw [rollLess_iff]
      left
      have := List.length_pos.mpr h1
      simp only [List.length_append, List.length_cons]
      omega

theorem rollOnce_sort_comparator_witness :
    suffixNum (strL "app.log" ++ '.' :: ['3']) = (3 : Int) ∧
    rollLess (strL "app.log") (strL "app.log" ++ '.' :: ['3']) = true := by
  have h := rollOnce_sort_comparator.2 (strL "app.log") ['3']
    (by decide) (by decide)
  exact ⟨by rw [h.1]; decide, h.2⟩

/-- The concrete stat of the C7 counterexample: birth time present at the
zero instant. -/
def stBirthZero : Rstat := ⟨0, 0, some ⟨0, 0⟩⟩

/-- C7 counterexample: at `interval = 5`, birth time `0` and `now = 5` the
claim's condition `now - birthTime ≥ interval` holds, but
`time.Now().After(birth.Add(interval))` is strict, so `Check` returns
`false` — refuting the "if and only if ... ≥" formulation at the boundary
instant. -/
theorem intervalChecker_boundary_cex :
    ¬ (∀ (c : intervalChecker) (st : Rstat) (now : Int),
        (c.Check st now).1 = true ↔
          (0 < c.interval ∧ ∃ bt, st.birthTimespec = some bt ∧
            now - tsNanos bt ≥ c.interval)) := by
  intro h
  exact absurd ((h ⟨5⟩ stBirthZero 5).mpr
    ⟨by decide, ⟨0, 0⟩, rfl, by decide⟩) (by decide)

/-- C7 (amended): `intervalChecker.Check` returns true iff the interval is
positive, the birth time is present, and `now - birthTime` strictly exceeds
the interval (Go's `After` is strict); with a non-positive interval it
never triggers, and an absent birth time yields `false` with no error — in
fact the checker never returns an error. -/
theorem intervalChecker_check_characterization (c : intervalChecker)
    (st : Rstat) (now : Int) :
    (c.Check st now).2 = none ∧
    ((c.Check st now).1 = true ↔
      (0 < c.interval ∧ ∃ bt, st.birthTimespec = some bt ∧
        now - tsNanos bt > c.interval)) := by
  cases hb : st.birthTimespec with
  | none =>
      by_cases hi : c.interval ≤ 0 <;>
        simp [intervalChecker.Check, Rstat.Birthtimespec, hb, hi]
  | some bt =>
      by_cases hi : c.interval ≤ 0
      · simp [intervalChecker.Check, Rstat.Birthtimespec, hb, hi]
      · simp [intervalChecker.Check, Rstat.Birthtimespec, hb, hi]
        omega


/-- C8: the default processor walks the survivors in reverse index order
(oldest first), renaming each entry to its suffix bump; on the sorted
backlog `[app.log.1, app.log.2]` it renames `.2 → .3` first and then
`.1 → .2`, leaving `{app.log.2, app.log.3}`; a bare name gains suffix `.1`;
and on a `rollLess`-sorted list of canonical family names no rename target
ever collides with a not-yet-processed (earlier-sorted) entry. -/
theorem defaultProcessor_reverse_no_collision :
    processOrder [strL "app.log.1", strL "app.log.2"]
        = [(strL "app.log.2", strL "app.log.3"),
           (strL "app.log.1", strL "app.log.2")] ∧
    (applyProcess [strL "app.log.1", strL "app.log.2"]
        [strL "app.log.1", strL "app.log.2"]).Perm
      [strL "app.log.2", strL "app.log.3"] ∧
    incrTailNumber (strL "app.log") = strL "app.log.1" ∧
    ∀ (base : List Char) (remains : List (List Char)),
      (∀ n ∈ remains, canonFamily base n) →
      remains.Pairwise (fun a b => rollLess a b = true) →
      ∀ i j (hi : i < remains.length) (hj : j < i),
        incrTailNumber (remains.get ⟨i, hi⟩)
          ≠ remains.get ⟨j, Nat.lt_trans hj hi⟩ :=
  ⟨by decide, by decide, by decide, no_collision_aux⟩

theorem defaultProcessor_reverse_no_collision_witness :
    incrTailNumber (strL "app.log" ++ '.' :: natToChars 1)
      ≠ strL "app.log" := by
  have h := defaultProcessor_reverse_no_collision
  have hfam : ∀ n ∈ [strL "app.log",
      strL "app.log" ++ '.' :: natToChars 1],
      canonFamily (strL "app.log") n := by
    intro n hn
    rcases List.mem_cons.mp hn with rfl | hn2
    · exact Or.inl rfl
    · rcases List.mem_cons.mp hn2 with rfl | hn3
      · exact Or.inr ⟨1, rfl⟩
      · exact absurd hn3 (by simp)
  have hsort : ([strL "app.log",
      strL "app.log" ++ '.' :: natToChars 1]).Pairwise
        (fun a b => rollLess a b = true) := by
    refine List.Pairwise.cons ?_ (List.pairwise_singleton _ _)
    intro b hb
    rw [List.mem_singleton] at hb
    subst hb
    decide
  exact h.2.2.2 (strL "app.log")
    [strL "app.log", strL "app.log" ++ '.' :: natToChars 1]
    hfam hsort 1 0 (by decide) (by decide)

theorem rstat_fold_update (ds : List (Int × Int)) :
    ∀ r : Rstat,
      (ds.foldl (fun r d => r.update d.1 d.2) r).Size
        = r.Size + (ds.map Prod.fst).sum := by
  induction ds with
  | nil => intro r; simp
  | cons d ds ih =>
      intro r
      simp only [List.foldl_cons, List.map_cons, List.sum_cons]
      rw [ih]
      simp only [Rstat.update, Rstat.Size]
      ring

/-- C9: after `Rstat.reset` succeeds on a file of size `S`, a sequence of
`update(d1), ..., update(dn)` calls (pure, infallible, no I/O) leaves
`Size()` equal to `S + d1 + ... + dn`. -/
theorem rstat_size_accumulates (r0 : Rstat) (info : FileInfoM)
    (ds : List (Int × Int)) :
    (Rstat.reset r0 (some info)).map
        (fun r1 => (ds.foldl (fun r d => r.update d.1 d.2) r1).Size)
      = some (info.size + (ds.map Prod.fst).sum) := by
  simp only [Rstat.reset, Option.map_some']
  rw [rstat_fold_update]
  simp [Rstat.Size]

/-- C10: for every base name, the staging name `_<base>` matches neither
the default nor the compress matcher (the compiled pattern is anchored at
the start), so a rotation cycle's match phase never selects the staging
file into the backlog — it is never deleted, renamed or compressed. -/
theorem staging_file_never_matched (base ext : List Char)
    (entries : List DirEntryM) :
    regexMatcher.Match base ('_' :: base) = false ∧
    regexMatcher.MatchC ext base ('_' :: base) = false ∧
    ('_' :: base) ∉ (selectFamily base entries).map DirEntryM.name := by
  have hm : regexMatcher.Match base ('_' :: base) = false := by
    cases hb : regexMatcher.Match base ('_' :: base) with
    | false => rfl
    | true =>
        exfalso
        rcases regexMatcher_Match_iff.mp hb with h2 | h2
        · rcases patDenoteD_iff.mp h2 with h3 | ⟨ds, hne, _, h3⟩
          · exact absurd (congrArg List.length h3) (by simp)
          · have hl := congrArg List.length h3
            simp only [List.length_cons, List.length_append] at hl
            have := List.length_pos.mpr hne
            omega
        · exact absurd h2 (by simp)
  have hmc : regexMatcher.MatchC ext base ('_' :: base) = false := by
    cases hb : regexMatcher.MatchC ext base ('_' :: base) with
    | false => rfl
    | true =>
        exfalso
        rcases regexMatcher_MatchC_iff.mp hb with h2 | h2
        · rcases patDenoteC_iff.mp h2 with h3 | ⟨ds, hne, _, h3⟩
          · exact absurd (congrArg List.length h3) (by simp)
          · have hl := congrArg List.length h3
            simp only [List.length_cons, List.length_append] at hl
            have := List.length_pos.mpr hne
            omega
        · exact absurd h2 (by simp)
  refine ⟨hm, hmc, ?_⟩
  intro hmem
  rw [List.mem_map] at hmem
  obtain ⟨e, he, hname⟩ := hmem
  rw [selectFamily, List.mem_filter] at he
  have h2 := he.2
  rw [hname, hm] at h2
  simp at h2

end Rollingf
